import Mathlib

/-!
Verification of the object-name resolution and link-generation logic of
`scripts/minio_upload.py` (minio-share).  The Python functions are embedded
shallowly: strings are Lean `String`s (lists of characters), fallible values
are `Option`, the storage client of the orchestrator is abstracted by the
booleans its three calls return, and the orchestrator records the trace of
storage-client operations it invokes.
-/

namespace MinioUpload

/-! Character classes used by `sanitize_filename`. -/

/-- Characters matched by the regex `[<>:"/\\|?*\x00-\x1f]` on line 38:
the Windows/Unix-illegal filename characters plus ASCII controls. -/
def isIllegalChar (c : Char) : Bool :=
  c = '<' || c = '>' || c = ':' || c = '\"' || c = '/' || c = '\\' ||
  c = '|' || c = '?' || c = '*' || decide (c.toNat ≤ 0x1f)

/-- Characters matched by Python's `\s` on a `str` (Unicode whitespace as
recognised by CPython's `re`, i.e. `Py_UNICODE_ISSPACE`). -/
def isPySpaceChar (c : Char) : Bool :=
  let n := c.toNat
  (decide (9 ≤ n) && decide (n ≤ 13)) || n = 28 || n = 29 || n = 30 || n = 31 ||
  n = 32 || n = 0x85 || n = 0xa0 || n = 0x1680 ||
  (decide (0x2000 ≤ n) && decide (n ≤ 0x200a)) ||
  n = 0x2028 || n = 0x2029 || n = 0x202f || n = 0x205f || n = 0x3000

/-- Characters matched by the regex `[\s_]` on line 41. -/
def isSpaceOrUnderscore (c : Char) : Bool :=
  isPySpaceChar c || c = '_'

/-- Characters stripped from both ends by `.strip(' _')` on line 44. -/
def isStripChar (c : Char) : Bool :=
  c = ' ' || c = '_'

/-- Line 38: `re.sub(r'[<>:"/\\|?*\x00-\x1f]', '_', title)`. -/
def replaceIllegal (l : List Char) : List Char :=
  l.map fun c => if isIllegalChar c then '_' else c

/-- Helper for `re.sub(r'[\s_]+', '_', s)`: the flag records whether we are
inside a run of whitespace/underscores that has already emitted its `'_'`. -/
def collapseAux : Bool → List Char → List Char
  | _, [] => []
  | inRun, c :: rest =>
    if isSpaceOrUnderscore c then
      if inRun then collapseAux true rest
      else '_' :: collapseAux true rest
    else c :: collapseAux false rest

/-- Line 41: `re.sub(r'[\s_]+', '_', sanitized)` — every maximal run of
whitespace and/or underscores becomes a single underscore. -/
def collapseRuns (l : List Char) : List Char :=
  collapseAux false l

/-- Line 44: `sanitized.strip(' _')`. -/
def stripChars (l : List Char) : List Char :=
  List.rdropWhile isStripChar (l.dropWhile isStripChar)

/-- Line 48: `sanitized[:max_length].rsplit('_', 1)[0]` applied to a string
already truncated — everything before the last underscore, or the whole
string if it has no underscore. -/
def rsplitUnderscoreHead (l : List Char) : List Char :=
  if '_' ∈ l then ((l.reverse.dropWhile fun c => c != '_').drop 1).reverse else l

/-- Lines 38-44 of `sanitize_filename`: replace illegal characters, collapse
whitespace/underscore runs, strip the ends. -/
def preSanitize (l : List Char) : List Char :=
  stripChars (collapseRuns (replaceIllegal l))

/-- Lines 47-48: truncate to `max_length` and drop the trailing partial token
when the string is longer than `max_length`. -/
def truncateStep (s : List Char) (maxLength : Nat) : List Char :=
  if maxLength < s.length then rsplitUnderscoreHead (s.take maxLength) else s

/-- The fallback string returned on line 50 when everything was stripped. -/
def fileChars : List Char := ['f', 'i', 'l', 'e']

/-- Body of `sanitize_filename` for a non-empty title (lines 38-50). -/
def sanitizeCore (l : List Char) (maxLength : Nat) : List Char :=
  let s := truncateStep (preSanitize l) maxLength
  if s = [] then fileChars else s

/-- Lines 25-50, `sanitize_filename(title, max_length)`.  Python returns
`None` for a falsy (empty) title, modelled by `none`; the script always calls
it with the default `max_length=100`. -/
def sanitize_filename (title : String) (max_length : Nat) : Option String :=
  if title.data = [] then none
  else some (String.mk (sanitizeCore title.data max_length))

/-- `sanitize_filename` lifted to an optional argument, with Python's
truthiness test `if not title` sending both `None` and `""` to `None`. -/
def sanitizeOpt (o : Option String) (max_length : Nat) : Option String :=
  match o with
  | none => none
  | some t => sanitize_filename t max_length

/-! Path helpers (`os.path` on POSIX). -/

/-- Line 119: `os.path.basename(file_path)` — everything after the last
slash. -/
def pyBasename (p : String) : String :=
  String.mk ((p.data.reverse.takeWhile fun c => c != '/').reverse)

/-- Python's `str.rfind` for a single character: index of the last
occurrence, `-1` when absent. -/
def pyRfind (c : Char) (l : List Char) : Int :=
  match l.reverse.findIdx? (fun d => d == c) with
  | none => -1
  | some j => ((l.length - 1 - j : Nat) : Int)

/-- The extension part of `os.path.splitext` (posixpath): the suffix starting
at the last dot, provided that dot lies after the last slash and the
basename does not consist solely of leading dots up to it. -/
def splitextExt (p : List Char) : List Char :=
  let sepIndex := pyRfind '/' p
  let dotIndex := pyRfind '.' p
  if sepIndex < dotIndex then
    let fIdx := (sepIndex + 1).toNat
    let dIdx := dotIndex.toNat
    if ((p.drop fIdx).take (dIdx - fIdx)).any (fun c => c != '.') then
      p.drop dIdx
    else []
  else []

/-- Lines 88-90: `os.path.splitext(file_path)[1].lower()`.  `Char.toLower`
models `str.lower` on the ASCII range, which covers every extension the
script's table and the spec's examples mention. -/
def get_file_extension (file_path : String) : String :=
  String.mk ((splitextExt file_path.data).map Char.toLower)

/-- Lines 96-108: the fixed extension-to-MIME table. -/
def content_types : List (String × String) :=
  [(".jpg", "image/jpeg"), (".jpeg", "image/jpeg"), (".png", "image/png"),
   (".gif", "image/gif"), (".webp", "image/webp"), (".bmp", "image/bmp"),
   (".svg", "image/svg+xml"),
   (".mp4", "video/mp4"), (".webm", "video/webm"), (".mov", "video/quicktime"),
   (".avi", "video/x-msvideo"), (".mkv", "video/x-matroska"),
   (".mp3", "audio/mpeg"), (".wav", "audio/wav"), (".m4a", "audio/mp4"),
   (".pdf", "application/pdf"), (".txt", "text/plain")]

/-- Lines 93-109: `get_content_type`, a table lookup on the lowercased
extension with default `application/octet-stream`. -/
def get_content_type (file_path : String) : String :=
  (content_types.lookup (get_file_extension file_path)).getD
    "application/octet-stream"

/-! Console URL (`generate_console_url`, lines 159-163). -/

/-- UTF-8 encoding of one character, as `urllib.parse.quote` operates on the
UTF-8 bytes of its input. -/
def utf8Bytes (c : Char) : List Nat :=
  let n := c.toNat
  if n < 0x80 then [n]
  else if n < 0x800 then [0xc0 + n / 0x40, 0x80 + n % 0x40]
  else if n < 0x10000 then
    [0xe0 + n / 0x1000, 0x80 + n / 0x40 % 0x40, 0x80 + n % 0x40]
  else
    [0xf0 + n / 0x40000, 0x80 + n / 0x1000 % 0x40, 0x80 + n / 0x40 % 0x40,
     0x80 + n % 0x40]

/-- Bytes `urllib.parse.quote` never encodes: ASCII letters, digits, and
`_ . - ~` (the RFC 3986 unreserved characters). -/
def isAlwaysSafeByte (b : Nat) : Bool :=
  (decide (0x41 ≤ b) && decide (b ≤ 0x5a)) ||
  (decide (0x61 ≤ b) && decide (b ≤ 0x7a)) ||
  (decide (0x30 ≤ b) && decide (b ≤ 0x39)) ||
  b = 0x5f || b = 0x2e || b = 0x2d || b = 0x7e

/-- Uppercase hexadecimal digit, as produced by `urllib.parse.quote`. -/
def hexDigitChar : Nat → Char
  | 0 => '0' | 1 => '1' | 2 => '2' | 3 => '3' | 4 => '4'
  | 5 => '5' | 6 => '6' | 7 => '7' | 8 => '8' | 9 => '9'
  | 10 => 'A' | 11 => 'B' | 12 => 'C' | 13 => 'D' | 14 => 'E' | _ => 'F'

/-- One byte under `quote(..., safe='/')`: kept literal when unreserved or a
slash, otherwise percent-encoded. -/
def quoteByte (b : Nat) : List Char :=
  if isAlwaysSafeByte b || b = 0x2f then [Char.ofNat b]
  else ['%', hexDigitChar (b / 16), hexDigitChar (b % 16)]

/-- Line 162: `urllib.parse.quote(object_name, safe='/')`. -/
def pyQuoteSlashSafe (s : String) : String :=
  String.mk (((s.data.map utf8Bytes).flatten.map quoteByte).flatten)

/-- Python's `str.rstrip('/')`: remove every trailing slash. -/
def rstripSlash (s : String) : String :=
  String.mk (List.rdropWhile (fun c => c = '/') s.data)

/-- Lines 159-163: `generate_console_url(console_url, bucket, object_name)`.
A pure string composition, hence deterministic. -/
def generate_console_url (console_url bucket object_name : String) : String :=
  rstripSlash console_url ++ "/browser/" ++ bucket ++ "/" ++
    pyQuoteSlashSafe object_name

/-! Object-key resolution (`main` lines 177-186 plus `upload_file` lines
118-119). -/

/-- Python truthiness of an optional string: `None` and `""` are falsy. -/
def pyTruthy : Option String → Bool
  | none => false
  | some s => if s = "" then false else true

/-- Rendering of an optional string inside an f-string (`None` prints as
`"None"`; the branch is unreachable in the script because the title is
checked for truthiness first). -/
def fmtOpt : Option String → String
  | none => "None"
  | some s => s

/-- Lines 177-186 of `main`: choose the object name from `--title`,
`--name`, or leave it to `upload_file`'s basename fallback (`None`). -/
def mainObjectName (title name : Option String) (file_path : String) :
    Option String :=
  if pyTruthy title then
    some (fmtOpt (sanitizeOpt title 100) ++ get_file_extension file_path)
  else if pyTruthy name then name
  else none

/-- The object key actually used for the upload: `main`'s choice followed by
`upload_file`'s fallback `if not object_name: object_name =
os.path.basename(file_path)` (lines 118-119). -/
def resolveObjectKey (title name : Option String) (file_path : String) :
    String :=
  let object_name := mainObjectName title name file_path
  if pyTruthy object_name then fmtOpt object_name else pyBasename file_path

/-! Upload orchestrator (`upload_file`, lines 112-142). -/

/-- Storage-client operations `upload_file` can invoke. -/
inductive StorageOp
  | bucketExistsCheck
  | fputObject
  deriving DecidableEq

/-- Terminal failures of `upload_file` (each is a `sys.exit(1)` with a
distinct message in the script). -/
inductive UploadError
  | fileNotFound
  | bucketNotFound
  | s3UploadError
  deriving DecidableEq

/-- Lines 112-142: `upload_file(client, bucket, file_path, object_name,...)`.
The collaborators are abstracted by the outcomes of their calls:
`fileExists` is `os.path.exists(file_path)`, `bucket_exists` the result of
`client.bucket_exists(bucket)`, and `uploadOk` whether `client.fput_object`
succeeds.  The first component is the trace of storage-client operations
invoked, in order; the second the result (`sys.exit(1)` modelled as an
error). -/
def upload_file (fileExists bucket_exists uploadOk : Bool)
    (file_path : String) (object_name : Option String) :
    List StorageOp × Except UploadError String :=
  if fileExists = false then ([], Except.error UploadError.fileNotFound)
  else
    let objName :=
      if pyTruthy object_name then fmtOpt object_name else pyBasename file_path
    if bucket_exists = false then
      ([StorageOp.bucketExistsCheck], Except.error UploadError.bucketNotFound)
    else if uploadOk = false then
      ([StorageOp.bucketExistsCheck, StorageOp.fputObject],
       Except.error UploadError.s3UploadError)
    else
      ([StorageOp.bucketExistsCheck, StorageOp.fputObject], Except.ok objName)

/-- Adjacent-characters relation: no two consecutive underscores. -/
def noAdjUU : Char → Char → Prop := fun a b => a = '_' → b ≠ '_'

/-- A string free of ASCII control characters (0x00-0x1F). -/
def noCtrl (s : String) : Prop := ∀ c ∈ s.data, ¬(c.toNat ≤ 0x1f)

/-! Claim theorems: link builder, content types, orchestrator. -/

/-- C2: the console URL is the base URL with trailing slashes stripped,
then `/browser/`, the bucket, `/`, and the object key percent-encoded with
`/` kept literal (space becomes `%20`, `#` becomes `%23`); the function is a
pure composition, hence deterministic. -/
theorem generate_console_url_spec :
    (∀ c b k, generate_console_url c b k =
      rstripSlash c ++ "/browser/" ++ b ++ "/" ++ pyQuoteSlashSafe k) ∧
    generate_console_url "https://console.example.com/" "media" "a b/c#d.png" =
      "https://console.example.com/browser/media/a%20b/c%23d.png" :=
  ⟨fun _ _ _ => rfl, by decide⟩

/-- C9: content-type resolution is the fixed table applied to the lowercased
extension, defaulting to `application/octet-stream` for unknown or missing
extensions; `.png` and `.PNG` both give `image/png`. -/
theorem get_content_type_spec :
    (∀ p, get_content_type p =
      (content_types.lookup (get_file_extension p)).getD
        "application/octet-stream") ∧
    (∀ p q, get_file_extension p = get_file_extension q →
      get_content_type p = get_content_type q) ∧
    get_content_type "x.png" = "image/png" ∧
    get_content_type "x.PNG" = "image/png" ∧
    get_content_type "x.unknownext" = "application/octet-stream" ∧
    get_content_type "noext" = "application/octet-stream" := by
  refine ⟨fun _ => rfl, fun p q h => ?_, by decide, by decide, by decide,
    by decide⟩
  unfold get_content_type
  rw [h]

/-- Witness for C9 at concrete inputs: equal lowercased extensions give
equal content types. -/
theorem get_content_type_spec_witness :
    get_content_type "a.PNG" = get_content_type "b.png" :=
  get_content_type_spec.2.1 "a.PNG" "b.png" (by decide)

/-- C8: when the bucket check fails (after the file check passed) the
orchestrator reports `bucketNotFound` and never calls `fput_object`; the
upload is invoked only when both checks succeeded, every storage operation
is invoked at most once (no retries), and the trace is always an initial
segment of check-then-upload. -/
theorem upload_file_order (fe be ok : Bool) (p : String) (n : Option String) :
    (fe = true → be = false →
      upload_file fe be ok p n =
        ([StorageOp.bucketExistsCheck],
         Except.error UploadError.bucketNotFound)) ∧
    (StorageOp.fputObject ∈ (upload_file fe be ok p n).1 →
      fe = true ∧ be = true) ∧
    ((upload_file fe be ok p n).1.count StorageOp.fputObject ≤ 1 ∧
     (upload_file fe be ok p n).1.count StorageOp.bucketExistsCheck ≤ 1) ∧
    ((upload_file fe be ok p n).1 = [] ∨
     (upload_file fe be ok p n).1 = [StorageOp.bucketExistsCheck] ∨
     (upload_file fe be ok p n).1 =
       [StorageOp.bucketExistsCheck, StorageOp.fputObject]) := by
  cases fe <;> cases be <;> cases ok <;>
    simp [upload_file, List.count_cons, List.count_nil]

/-- Witness for C8: with an existing file and a missing bucket the result is
exactly the bucket-not-found failure with no upload call. -/
theorem upload_file_order_witness :
    upload_file true false true "f.png" none =
      ([StorageOp.bucketExistsCheck], Except.error UploadError.bucketNotFound) :=
  (upload_file_order true false true "f.png" none).1 rfl rfl

/-! Lemmas about the sanitizer's building blocks. -/

lemma su_underscore : isSpaceOrUnderscore '_' = true := by decide

lemma eq_underscore_of_su_not_space {c : Char}
    (h : isSpaceOrUnderscore c = true) (h2 : isPySpaceChar c = false) :
    c = '_' := by
  simp [isSpaceOrUnderscore, h2] at h
  exact h

lemma mem_replaceIllegal {c : Char} {l : List Char}
    (h : c ∈ replaceIllegal l) : isIllegalChar c = false := by
  simp only [replaceIllegal, List.mem_map] at h
  obtain ⟨a, _, ha⟩ := h
  by_cases hI : isIllegalChar a = true
  · rw [if_pos hI] at ha
    subst ha
    decide
  · rw [if_neg hI] at ha
    subst ha
    exact Bool.eq_false_iff.mpr hI

lemma mem_collapseAux {c : Char} {b : Bool} {l : List Char}
    (h : c ∈ collapseAux b l) :
    c = '_' ∨ (c ∈ l ∧ isSpaceOrUnderscore c = false) := by
  induction l generalizing b with
  | nil => simp [collapseAux] at h
  | cons a t ih =>
    by_cases hsu : isSpaceOrUnderscore a = true
    · cases b with
      | true =>
        simp only [collapseAux, if_pos hsu, if_pos rfl] at h
        rcases ih h with h1 | ⟨h1, h2⟩
        · exact Or.inl h1
        · exact Or.inr ⟨List.mem_cons_of_mem _ h1, h2⟩
      | false =>
        simp only [collapseAux, if_pos hsu] at h
        rcases List.mem_cons.mp h with h1 | h1
        · exact Or.inl h1
        · rcases ih h1 with h2 | ⟨h2, h3⟩
          · exact Or.inl h2
          · exact Or.inr ⟨List.mem_cons_of_mem _ h2, h3⟩
    · simp only [collapseAux, if_neg hsu] at h
      rcases List.mem_cons.mp h with h1 | h1
      · subst h1
        exact Or.inr ⟨List.mem_cons_self _ _, Bool.eq_false_iff.mpr hsu⟩
      · rcases ih h1 with h2 | ⟨h2, h3⟩
        · exact Or.inl h2
        · exact Or.inr ⟨List.mem_cons_of_mem _ h2, h3⟩

lemma head_collapseAux_true {l : List Char} {c : Char}
    (h : (collapseAux true l).head? = some c) :
    isSpaceOrUnderscore c = false := by
  induction l with
  | nil => simp [collapseAux] at h
  | cons a t ih =>
    by_cases hsu : isSpaceOrUnderscore a = true
    · simp only [collapseAux, if_pos hsu, if_pos rfl] at h
      exact ih h
    · simp only [collapseAux, if_neg hsu, List.head?_cons,
        Option.some.injEq] at h
      subst h
      exact Bool.eq_false_iff.mpr hsu

lemma chain'_collapseAux (b : Bool) (l : List Char) :
    List.Chain' noAdjUU (collapseAux b l) := by
  induction l generalizing b with
  | nil => simp [collapseAux]
  | cons a t ih =>
    by_cases hsu : isSpaceOrUnderscore a = true
    · cases b with
      | true =>
        simpa only [collapseAux, if_pos hsu, if_pos rfl] using ih true
      | false =>
        simp only [collapseAux, if_pos hsu, if_neg Bool.false_ne_true]
        rw [List.chain'_cons']
        refine ⟨fun y hy hu => ?_, ih true⟩
        intro hy'
        subst hy'
        have := head_collapseAux_true hy
        rw [su_underscore] at this
        cases this
    · simp only [collapseAux, if_neg hsu]
      rw [List.chain'_cons']
      refine ⟨fun y _ hu => ?_, ih false⟩
      subst hu
      exact absurd su_underscore (Bool.eq_false_iff.mp (Bool.eq_false_iff.mpr hsu))

lemma collapseAux_eq_self {l : List Char}
    (hsp : ∀ c ∈ l, isPySpaceChar c = false)
    (hch : List.Chain' noAdjUU l) :
    collapseAux false l = l ∧
      ((∀ c, l.head? = some c → c ≠ '_') → collapseAux true l = l) := by
  induction l with
  | nil => exact ⟨rfl, fun _ => rfl⟩
  | cons a t ih =>
    have hspt : ∀ c ∈ t, isPySpaceChar c = false :=
      fun c hc => hsp c (List.mem_cons_of_mem _ hc)
    have hcht : List.Chain' noAdjUU t := (List.chain'_cons'.mp hch).2
    have hhead : ∀ y ∈ t.head?, noAdjUU a y := (List.chain'_cons'.mp hch).1
    obtain ⟨ihF, ihT⟩ := ih hspt hcht
    by_cases hsu : isSpaceOrUnderscore a = true
    · have ha : a = '_' :=
        eq_underscore_of_su_not_space hsu (hsp a (List.mem_cons_self _ _))
      subst ha
      constructor
      · simp only [collapseAux, if_pos hsu, if_neg Bool.false_ne_true]
        have : collapseAux true t = t :=
          ihT (fun c hc => (hhead c hc) rfl)
        rw [this]
      · intro hH
        exact absurd rfl (hH '_' rfl)
    · constructor
      · simp only [collapseAux, if_neg hsu]
        rw [ihF]
      · intro _
        simp only [collapseAux, if_neg hsu]
        rw [ihF]

/-! Lemmas about `stripChars`. -/

lemma rdropWhile_append_rtakeWhile (p : Char → Bool) (l : List Char) :
    List.rdropWhile p l ++ List.rtakeWhile p l = l := by
  rw [List.rdropWhile, List.rtakeWhile, ← List.reverse_append,
    List.takeWhile_append_dropWhile, List.reverse_reverse]

lemma mem_rdropWhile {c : Char} {p : Char → Bool} {m : List Char}
    (h : c ∈ List.rdropWhile p m) : c ∈ m := by
  rw [List.rdropWhile] at h
  exact List.mem_reverse.mp
    ((List.dropWhile_sublist p).subset (List.mem_reverse.mp h))

lemma mem_stripChars {c : Char} {l : List Char}
    (h : c ∈ stripChars l) : c ∈ l :=
  (List.dropWhile_sublist isStripChar).subset (mem_rdropWhile h)

lemma stripChars_decomp (l : List Char) :
    ∃ u v, l = u ++ stripChars l ++ v := by
  have h1 : l.takeWhile isStripChar ++ l.dropWhile isStripChar = l :=
    List.takeWhile_append_dropWhile _ _
  have h2 : stripChars l ++
      List.rtakeWhile isStripChar (l.dropWhile isStripChar) =
      l.dropWhile isStripChar := rdropWhile_append_rtakeWhile _ _
  exact ⟨_, _, by rw [List.append_assoc, h2, h1]⟩

lemma chain'_stripChars {R : Char → Char → Prop} {l : List Char}
    (h : List.Chain' R l) : List.Chain' R (stripChars l) := by
  obtain ⟨u, v, hl⟩ := stripChars_decomp l
  rw [hl] at h
  exact (List.chain'_append.mp (List.chain'_append.mp h).1).2.1

lemma head_not_of_dropWhile {p : Char → Bool} {l : List Char} {c : Char}
    (h : (l.dropWhile p).head? = some c) : p c = false := by
  induction l with
  | nil => simp at h
  | cons a t ih =>
    by_cases hp : p a = true
    · rw [List.dropWhile_cons, if_pos hp] at h
      exact ih h
    · rw [List.dropWhile_cons, if_neg hp] at h
      simp only [List.head?_cons, Option.some.injEq] at h
      subst h
      exact Bool.eq_false_iff.mpr hp

lemma head?_append_left {u v : List Char} {c : Char}
    (h : u.head? = some c) : (u ++ v).head? = some c := by
  cases u with
  | nil => simp at h
  | cons a t =>
    simp only [List.head?_cons, Option.some.injEq] at h
    simp [h]

lemma head_stripChars {l : List Char} {c : Char}
    (h : (stripChars l).head? = some c) : isStripChar c = false := by
  have hd : (l.dropWhile isStripChar).head? = some c := by
    rw [← rdropWhile_append_rtakeWhile isStripChar (l.dropWhile isStripChar)]
    exact head?_append_left h
  exact head_not_of_dropWhile hd

lemma last_stripChars {l : List Char} {c : Char}
    (h : (stripChars l).getLast? = some c) : isStripChar c = false := by
  unfold stripChars at h
  have hne : List.rdropWhile isStripChar (l.dropWhile isStripChar) ≠ [] := by
    intro he
    rw [he] at h
    cases h
  have hnot := List.rdropWhile_last_not isStripChar
    (l.dropWhile isStripChar) hne
  rw [List.getLast?_eq_getLast _ hne, Option.some.injEq] at h
  rw [h] at hnot
  exact Bool.eq_false_iff.mpr hnot

/-! Lemmas about `rsplitUnderscoreHead` and `truncateStep`. -/

lemma rsplit_eq_self {l : List Char} (h : '_' ∉ l) :
    rsplitUnderscoreHead l = l := by
  rw [rsplitUnderscoreHead, if_neg h]

lemma rsplit_decomp {l : List Char} (h : '_' ∈ l) :
    ∃ a b, l = a ++ '_' :: b ∧ '_' ∉ b ∧ rsplitUnderscoreHead l = a := by
  have hmem : '_' ∈ l.reverse := List.mem_reverse.mpr h
  have hdne : l.reverse.dropWhile (fun c => c != '_') ≠ [] := by
    intro he
    have := List.dropWhile_eq_nil_iff.mp he '_' hmem
    simp at this
  obtain ⟨x, u, hxu⟩ : ∃ x u,
      l.reverse.dropWhile (fun c => c != '_') = x :: u := by
    cases hcase : l.reverse.dropWhile (fun c => c != '_') with
    | nil => exact absurd hcase hdne
    | cons x u => exact ⟨x, u, rfl⟩
  have hhd : (l.reverse.dropWhile (fun c => c != '_')).head? = some x := by
    rw [hxu, List.head?_cons]
  have hx := head_not_of_dropWhile hhd
  have hxe : x = '_' := by simpa using hx
  subst hxe
  have hsplit : l.reverse.takeWhile (fun c => c != '_') ++ ('_' :: u) =
      l.reverse := by
    rw [← hxu]
    exact List.takeWhile_append_dropWhile _ _
  have hwne : '_' ∉ l.reverse.takeWhile (fun c => c != '_') := by
    intro hm
    have := List.mem_takeWhile_imp hm
    simp at this
  refine ⟨u.reverse, (l.reverse.takeWhile (fun c => c != '_')).reverse,
    ?_, ?_, ?_⟩
  · conv_lhs => rw [← List.reverse_reverse l, ← hsplit]
    simp
  · simpa using hwne
  · rw [rsplitUnderscoreHead, if_pos h, hxu]
    simp

lemma rsplit_length (l : List Char) :
    (rsplitUnderscoreHead l).length ≤ l.length := by
  by_cases h : '_' ∈ l
  · obtain ⟨a, b, hl, _, hr⟩ := rsplit_decomp h
    rw [hr, hl]
    simp only [List.length_append, List.length_cons]
    omega
  · rw [rsplit_eq_self h]

lemma rsplit_subset {c : Char} {l : List Char}
    (h : c ∈ rsplitUnderscoreHead l) : c ∈ l := by
  by_cases hm : '_' ∈ l
  · obtain ⟨a, b, hl, _, hr⟩ := rsplit_decomp hm
    rw [hr] at h
    rw [hl]
    exact List.mem_append.mpr (Or.inl h)
  · rwa [rsplit_eq_self hm] at h

lemma rsplit_chain {R : Char → Char → Prop} {l : List Char}
    (h : List.Chain' R l) : List.Chain' R (rsplitUnderscoreHead l) := by
  by_cases hm : '_' ∈ l
  · obtain ⟨a, b, hl, _, hr⟩ := rsplit_decomp hm
    rw [hr]
    rw [hl, ← List.singleton_append, ← List.append_assoc] at h
    exact (List.chain'_append.mp (List.chain'_append.mp h).1).1
  · rwa [rsplit_eq_self hm]

lemma rsplit_head {l : List Char} (h : l.head? ≠ some '_') :
    (rsplitUnderscoreHead l).head? = l.head? := by
  by_cases hm : '_' ∈ l
  · obtain ⟨a, b, hl, _, hr⟩ := rsplit_decomp hm
    subst hl
    rw [hr]
    cases a with
    | nil => exact absurd rfl h
    | cons x a' => rfl
  · rw [rsplit_eq_self hm]

lemma rsplit_last {l : List Char} (hch : List.Chain' noAdjUU l) {c : Char}
    (h : (rsplitUnderscoreHead l).getLast? = some c) : c ≠ '_' := by
  by_cases hm : '_' ∈ l
  · obtain ⟨a, b, hl, _, hr⟩ := rsplit_decomp hm
    subst hl
    rw [hr] at h
    intro he
    subst he
    obtain ⟨a', ha'⟩ := List.getLast?_eq_some_iff.mp h
    subst ha'
    have hlink := (List.chain'_append.mp hch).2.2
    exact absurd rfl (hlink '_' (Option.mem_def.mpr (List.getLast?_concat a'))
      '_' (Option.mem_def.mpr rfl) rfl)
  · rw [rsplit_eq_self hm] at h
    intro he
    subst he
    exact hm (List.mem_of_getLast?_eq_some h)

lemma head?_take {l : List Char} {n : Nat} (hn : n ≠ 0) :
    (l.take n).head? = l.head? := by
  cases l with
  | nil => simp
  | cons a t =>
    cases n with
    | zero => exact absurd rfl hn
    | succ m => rfl

lemma chain'_take {R : Char → Char → Prop} {l : List Char}
    (h : List.Chain' R l) (n : Nat) : List.Chain' R (l.take n) := by
  have hd := List.take_append_drop n l
  rw [← hd] at h
  exact (List.chain'_append.mp h).1

/-! Invariants of the sanitizer pipeline. -/

lemma preSanitize_mem {c : Char} {l : List Char} (h : c ∈ preSanitize l) :
    isIllegalChar c = false ∧ isPySpaceChar c = false := by
  have h2 : c ∈ collapseAux false (replaceIllegal l) := mem_stripChars h
  rcases mem_collapseAux h2 with he | ⟨hm, hsu⟩
  · subst he
    exact ⟨by decide, by decide⟩
  · refine ⟨mem_replaceIllegal hm, ?_⟩
    exact (Bool.or_eq_false_iff.mp hsu).1

lemma preSanitize_chain (l : List Char) :
    List.Chain' noAdjUU (preSanitize l) :=
  chain'_stripChars (chain'_collapseAux false _)

lemma stripChar_false_of_clean {c : Char} (hu : c ≠ '_')
    (hsp : isPySpaceChar c = false) : isStripChar c = false := by
  rw [isStripChar]
  refine Bool.or_eq_false_iff.mpr ⟨decide_eq_false ?_, decide_eq_false hu⟩
  intro he
  subst he
  exact absurd hsp (by decide)

lemma truncateStep_spec (s : List Char) (m : Nat)
    (hmem : ∀ c ∈ s, isIllegalChar c = false ∧ isPySpaceChar c = false)
    (hch : List.Chain' noAdjUU s)
    (hhead : ∀ c, s.head? = some c → isStripChar c = false)
    (hlast : ∀ c, s.getLast? = some c → isStripChar c = false) :
    (∀ c ∈ truncateStep s m,
      isIllegalChar c = false ∧ isPySpaceChar c = false) ∧
    List.Chain' noAdjUU (truncateStep s m) ∧
    (∀ c, (truncateStep s m).head? = some c → isStripChar c = false) ∧
    (∀ c, (truncateStep s m).getLast? = some c → isStripChar c = false) ∧
    (truncateStep s m).length ≤ m := by
  by_cases ht : m < s.length
  · rw [truncateStep, if_pos ht]
    have hmem' : ∀ c ∈ rsplitUnderscoreHead (s.take m),
        isIllegalChar c = false ∧ isPySpaceChar c = false :=
      fun c hc => hmem c (List.take_subset _ _ (rsplit_subset hc))
    refine ⟨hmem', rsplit_chain (chain'_take hch m), ?_, ?_, ?_⟩
    · intro c hc
      rcases Nat.eq_zero_or_pos m with hm0 | hm0
      · subst hm0
        rw [rsplit_eq_self (by simp)] at hc
        simp at hc
      · have hne : (s.take m).head? ≠ some '_' := by
          rw [head?_take (Nat.pos_iff_ne_zero.mp hm0)]
          intro hu
          have := hhead '_' hu
          simp [isStripChar] at this
        rw [rsplit_head hne, head?_take (Nat.pos_iff_ne_zero.mp hm0)] at hc
        exact hhead c hc
    · intro c hc
      have hcu : c ≠ '_' := rsplit_last (chain'_take hch m) hc
      have hcm : c ∈ s :=
        List.take_subset _ _
          (rsplit_subset (List.mem_of_getLast?_eq_some hc))
      exact stripChar_false_of_clean hcu (hmem c hcm).2
    · exact le_trans (rsplit_length _) (List.length_take_le _ _)
  · rw [truncateStep, if_neg ht]
    exact ⟨hmem, hch, hhead, hlast, Nat.le_of_not_lt ht⟩

lemma chain'_fileChars : List.Chain' noAdjUU fileChars := by
  rw [fileChars]
  refine List.chain'_cons.mpr ⟨?_, List.chain'_cons.mpr ⟨?_,
    List.chain'_pair.mpr ?_⟩⟩ <;> exact fun h => absurd h (by decide)

lemma sanitizeCore_spec (l : List Char) (m : Nat) :
    sanitizeCore l m ≠ [] ∧
    (∀ c ∈ sanitizeCore l m,
      isIllegalChar c = false ∧ isPySpaceChar c = false) ∧
    List.Chain' noAdjUU (sanitizeCore l m) ∧
    (∀ c, (sanitizeCore l m).head? = some c → isStripChar c = false) ∧
    (∀ c, (sanitizeCore l m).getLast? = some c → isStripChar c = false) ∧
    (4 ≤ m → (sanitizeCore l m).length ≤ m) := by
  obtain ⟨hm4, hch4, hh4, hl4, hlen4⟩ :=
    truncateStep_spec (preSanitize l) m
      (fun c hc => preSanitize_mem hc) (preSanitize_chain l)
      (fun c hc => head_stripChars hc) (fun c hc => last_stripChars hc)
  have hcore : sanitizeCore l m =
      if truncateStep (preSanitize l) m = [] then fileChars
      else truncateStep (preSanitize l) m := rfl
  by_cases h4 : truncateStep (preSanitize l) m = []
  · rw [hcore, if_pos h4]
    refine ⟨by decide, ?_, chain'_fileChars, ?_, ?_, fun hm' => ?_⟩
    · intro c hc
      have hc' : c = 'f' ∨ c = 'i' ∨ c = 'l' ∨ c = 'e' := by
        simpa [fileChars] using hc
      rcases hc' with rfl | rfl | rfl | rfl <;> exact ⟨by decide, by decide⟩
    · intro c hc
      rw [show fileChars.head? = some 'f' from rfl,
        Option.some.injEq] at hc
      subst hc
      decide
    · intro c hc
      rw [show fileChars.getLast? = some 'e' from rfl,
        Option.some.injEq] at hc
      subst hc
      decide
    · simpa [fileChars] using hm'
  · rw [hcore, if_neg h4]
    exact ⟨h4, hm4, hch4, hh4, hl4, fun _ => hlen4⟩

lemma sanitizeCore_eq_self {s : List Char} {m : Nat}
    (hmem : ∀ c ∈ s, isIllegalChar c = false ∧ isPySpaceChar c = false)
    (hch : List.Chain' noAdjUU s)
    (hhead : ∀ c, s.head? = some c → isStripChar c = false)
    (hlast : ∀ c, s.getLast? = some c → isStripChar c = false)
    (hlen : s.length ≤ m) (hne : s ≠ []) :
    sanitizeCore s m = s := by
  have h1 : replaceIllegal s = s := by
    have hmapeq :
        s.map (fun c => if isIllegalChar c then '_' else c) = s.map id :=
      List.map_congr_left (fun c hc => by simp [(hmem c hc).1])
    rw [replaceIllegal, hmapeq, List.map_id]
  have h2 : collapseRuns s = s :=
    (collapseAux_eq_self (fun c hc => (hmem c hc).2) hch).1
  have h3 : stripChars s = s := by
    rw [stripChars]
    have hd : s.dropWhile isStripChar = s := by
      cases s with
      | nil => rfl
      | cons a t =>
        rw [List.dropWhile_cons, if_neg]
        intro ht
        rw [hhead a rfl] at ht
        exact Bool.false_ne_true ht
    rw [hd]
    rw [List.rdropWhile_eq_self_iff]
    intro hl'
    have := hlast (s.getLast hl') (List.getLast?_eq_getLast _ hl')
    simp [this]
  have h4 : truncateStep s m = s := by
    rw [truncateStep, if_neg (Nat.not_lt.mpr hlen)]
  have hcore : sanitizeCore s m =
      if truncateStep (preSanitize s) m = [] then fileChars
      else truncateStep (preSanitize s) m := rfl
  rw [hcore, preSanitize, h1, h2, h3, h4, if_neg hne]

/-! Bridging lemmas for `sanitize_filename`. -/

lemma sanitize_filename_eq_some {t : String} {m : Nat} {s : String}
    (h : sanitize_filename t m = some s) :
    s.data = sanitizeCore t.data m := by
  rw [sanitize_filename] at h
  by_cases ht : t.data = []
  · rw [if_pos ht] at h
    cases h
  · rw [if_neg ht] at h
    have h2 := Option.some.inj h
    subst h2
    rfl

lemma illegal_of_ctrl {c : Char} (h : c.toNat ≤ 0x1f) :
    isIllegalChar c = true := by
  simp [isIllegalChar, h]

lemma string_eq_empty_iff {s : String} : s = "" ↔ s.data = [] := by
  constructor
  · intro h
    rw [h]
  · intro h
    exact String.ext (show s.data = ("" : String).data from h)

/-! Claim theorems for the sanitizer. -/

/-- C4: the sanitizer's output never contains one of the illegal characters
`< > : " / \ | ? *` or an ASCII control character; the replacement step maps
each input position holding such a character to an underscore. -/
theorem sanitize_no_illegal (t : String) (m : Nat) (s : String)
    (h : sanitize_filename t m = some s) :
    (∀ c ∈ s.data, isIllegalChar c = false) ∧
    (∀ (l : List Char) (i : Nat),
      (replaceIllegal l)[i]? =
        (l[i]?).map fun c => if isIllegalChar c then '_' else c) := by
  refine ⟨?_, ?_⟩
  · intro c hc
    rw [sanitize_filename_eq_some h] at hc
    exact ((sanitizeCore_spec t.data m).2.1 c hc).1
  · intro l i
    rw [replaceIllegal]
    exact List.getElem?_map _ l i

/-- Witness for C4: the output of sanitizing a title with an illegal
character has only legal characters. -/
theorem sanitize_no_illegal_witness : isIllegalChar '_' = false :=
  (sanitize_no_illegal "a<b" 100 "a_b" (by decide)).1 '_' (by decide)

/-- C5 counterexample: the empty string consists only of illegal/whitespace
characters (vacuously) yet `sanitize_filename` returns `None`, not
`"file"`. -/
theorem sanitize_empty_counterexample :
    sanitize_filename "" 100 = none ∧
    sanitize_filename "" 100 ≠ some "file" :=
  ⟨rfl, by decide⟩

lemma collapseAux_true_all_su {l : List Char}
    (h : ∀ c ∈ l, isSpaceOrUnderscore c = true) :
    collapseAux true l = [] := by
  induction l with
  | nil => rfl
  | cons a u ih =>
    rw [collapseAux, if_pos (h a (List.mem_cons_self _ _)), if_pos rfl]
    exact ih fun c hc => h c (List.mem_cons_of_mem _ hc)

/-- C5 (amended): every NON-EMPTY input consisting only of illegal and/or
whitespace characters sanitizes to exactly `"file"` (the empty input instead
yields Python's `None`). -/
theorem sanitize_all_illegal_gives_file (t : String) (m : Nat)
    (hne : t.data ≠ [])
    (hall : ∀ c ∈ t.data, isIllegalChar c = true ∨ isPySpaceChar c = true) :
    sanitize_filename t m = some "file" := by
  have hsu : ∀ c ∈ replaceIllegal t.data, isSpaceOrUnderscore c = true := by
    intro c hc
    simp only [replaceIllegal, List.mem_map] at hc
    obtain ⟨a, ha, haeq⟩ := hc
    by_cases hI : isIllegalChar a = true
    · rw [if_pos hI] at haeq
      subst haeq
      decide
    · rw [if_neg hI] at haeq
      subst haeq
      rcases hall a ha with h1 | h1
      · exact absurd h1 hI
      · rw [isSpaceOrUnderscore, h1]
        rfl
  have hcol : collapseRuns (replaceIllegal t.data) = ['_'] := by
    have hmapne : replaceIllegal t.data ≠ [] := by
      rw [replaceIllegal]
      simpa using hne
    cases hcase : replaceIllegal t.data with
    | nil => exact absurd hcase hmapne
    | cons a u =>
      rw [collapseRuns, collapseAux,
        if_pos (hsu a (by rw [hcase]; exact List.mem_cons_self _ _)),
        if_neg Bool.false_ne_true,
        collapseAux_true_all_su
          fun c hc => hsu c (by rw [hcase]; exact List.mem_cons_of_mem _ hc)]
  have hpre : preSanitize t.data = [] := by
    rw [preSanitize, hcol]
    rfl
  have hcode : sanitizeCore t.data m = fileChars := by
    have hcore : sanitizeCore t.data m =
        if truncateStep (preSanitize t.data) m = [] then fileChars
        else truncateStep (preSanitize t.data) m := rfl
    rw [hcore, hpre]
    simp [truncateStep]
  rw [sanitize_filename, if_neg hne, hcode]
  decide

/-- Witness for C5 (amended): a non-empty all-illegal title gives
`"file"`. -/
theorem sanitize_all_illegal_witness :
    sanitize_filename "<>?" 100 = some "file" :=
  sanitize_all_illegal_gives_file "<>?" 100 (by decide) (by decide)

/-- C3 counterexample: with `max_length = 2` the input `"/"` sanitizes to
the fallback `"file"`, whose length 4 exceeds `max_length`. -/
theorem sanitize_length_counterexample :
    sanitize_filename "/" 2 = some "file" ∧
    ¬(("file" : String).length ≤ 2) :=
  ⟨by decide, by decide⟩

/-- C3 (amended): whenever `4 ≤ maxLength` (in particular at the script's
default 100) the output length is at most `maxLength`; and when the
intermediate result exceeds `maxLength` the output is the truncation to
`maxLength` with the trailing partial token after the last remaining
underscore dropped, the truncation being kept as-is when it has no
underscore.  (For `maxLength < 4` the `"file"` fallback can exceed the
bound, as the counterexample shows.) -/
theorem sanitize_length_le (t : String) (m : Nat) (h4 : 4 ≤ m) (s : String)
    (h : sanitize_filename t m = some s) :
    s.length ≤ m ∧
    (m < (preSanitize t.data).length →
      s.data = rsplitUnderscoreHead ((preSanitize t.data).take m) ∧
      ('_' ∉ (preSanitize t.data).take m →
        s.data = (preSanitize t.data).take m)) := by
  have hdata := sanitize_filename_eq_some h
  obtain ⟨hne, hmem, hch, hh, hl, hlen⟩ := sanitizeCore_spec t.data m
  constructor
  · show s.data.length ≤ m
    rw [hdata]
    exact hlen h4
  · intro htr
    have htrunc : truncateStep (preSanitize t.data) m =
        rsplitUnderscoreHead ((preSanitize t.data).take m) := by
      rw [truncateStep, if_pos htr]
    have hm0 : m ≠ 0 := by omega
    have hsne : preSanitize t.data ≠ [] := by
      intro he
      rw [he] at htr
      simp at htr
    have hheadne : (preSanitize t.data).head? ≠ some '_' := by
      intro hu
      exact absurd (head_stripChars hu) (by decide)
    have hht : ((preSanitize t.data).take m).head? =
        (preSanitize t.data).head? := head?_take hm0
    have hresh : (rsplitUnderscoreHead ((preSanitize t.data).take m)).head? =
        (preSanitize t.data).head? := by
      rw [rsplit_head (by rw [hht]; exact hheadne), hht]
    have hresne : rsplitUnderscoreHead ((preSanitize t.data).take m) ≠ [] := by
      intro he
      rw [he] at hresh
      cases hcase : preSanitize t.data with
      | nil => exact hsne hcase
      | cons a u =>
        rw [hcase] at hresh
        cases hresh
    have hcoreeq : sanitizeCore t.data m =
        rsplitUnderscoreHead ((preSanitize t.data).take m) := by
      have hcore : sanitizeCore t.data m =
          if truncateStep (preSanitize t.data) m = [] then fileChars
          else truncateStep (preSanitize t.data) m := rfl
      rw [hcore, htrunc, if_neg hresne]
    refine ⟨by rw [hdata, hcoreeq], ?_⟩
    intro hnu
    rw [hdata, hcoreeq, rsplit_eq_self hnu]

/-- Witness for C3 (amended): `"ab cd ef"` at `max_length = 4` gives
`"ab"`, of length at most 4. -/
theorem sanitize_length_le_witness : ("ab" : String).length ≤ 4 :=
  (sanitize_length_le "ab cd ef" 4 (by decide) "ab" (by decide)).1

/-- C6: sanitization (at the script's default `max_length = 100`, with
Python's `None`/empty-falsiness modelled by `sanitizeOpt`) is idempotent. -/
theorem sanitize_filename_idempotent (x : Option String) :
    sanitizeOpt (sanitizeOpt x 100) 100 = sanitizeOpt x 100 := by
  cases x with
  | none => rfl
  | some t =>
    show sanitizeOpt (sanitize_filename t 100) 100 = sanitize_filename t 100
    by_cases ht : t.data = []
    · rw [sanitize_filename, if_pos ht]
      rfl
    · rw [sanitize_filename, if_neg ht]
      show sanitize_filename (String.mk (sanitizeCore t.data 100)) 100 = _
      obtain ⟨hne, hmem, hch, hh, hl, hlen⟩ := sanitizeCore_spec t.data 100
      rw [sanitize_filename]
      rw [if_neg (show (String.mk (sanitizeCore t.data 100)).data ≠ []
        from hne)]
      have hfix : sanitizeCore (sanitizeCore t.data 100) 100 =
          sanitizeCore t.data 100 :=
        sanitizeCore_eq_self hmem hch hh hl (hlen (by decide)) hne
      exact congrArg (fun z => some (String.mk z)) hfix

/-- C10: for every non-empty input the sanitizer's output is non-empty and
neither begins nor ends with an underscore or a whitespace character, for
every `max_length` (so in particular when the truncation path was taken). -/
theorem sanitize_no_edge_underscore (t : String) (m : Nat) (s : String)
    (h : sanitize_filename t m = some s) :
    s ≠ "" ∧
    (∀ c, s.data.head? = some c → c ≠ '_' ∧ isPySpaceChar c = false) ∧
    (∀ c, s.data.getLast? = some c → c ≠ '_' ∧ isPySpaceChar c = false) := by
  have hdata := sanitize_filename_eq_some h
  obtain ⟨hne, hmem, hch, hh, hl, hlen⟩ := sanitizeCore_spec t.data m
  refine ⟨?_, ?_, ?_⟩
  · intro he
    apply hne
    rw [← hdata, string_eq_empty_iff.mp he]
  · intro c hc
    rw [hdata] at hc
    have hsc := hh c hc
    have hcm : c ∈ sanitizeCore t.data m :=
      List.mem_of_mem_head? (Option.mem_def.mpr hc)
    refine ⟨?_, (hmem c hcm).2⟩
    intro he
    subst he
    exact absurd hsc (by decide)
  · intro c hc
    rw [hdata] at hc
    have hsc := hl c hc
    have hcm : c ∈ sanitizeCore t.data m :=
      List.mem_of_getLast?_eq_some hc
    refine ⟨?_, (hmem c hcm).2⟩
    intro he
    subst he
    exact absurd hsc (by decide)

/-- Witness for C10: sanitizing `" My Video "` yields the non-empty
`"My_Video"`. -/
theorem sanitize_no_edge_underscore_witness : ("My_Video" : String) ≠ "" :=
  (sanitize_no_edge_underscore " My Video " 100 "My_Video" (by decide)).1

/-! Object-key resolution lemmas. -/

lemma pyTruthy_some_of_ne {t : String} (h : t ≠ "") :
    pyTruthy (some t) = true := by
  simp [pyTruthy, h]

lemma resolveObjectKey_eq (title name : Option String) (p : String) :
    (∀ t, title = some t → t ≠ "" →
      resolveObjectKey title name p =
        String.mk (sanitizeCore t.data 100) ++ get_file_extension p) ∧
    ((title = none ∨ title = some "") → ∀ n, name = some n → n ≠ "" →
      resolveObjectKey title name p = n) ∧
    ((title = none ∨ title = some "") → (name = none ∨ name = some "") →
      resolveObjectKey title name p = pyBasename p) := by
  refine ⟨?_, ?_, ?_⟩
  · intro t ht htne
    subst ht
    have hT := pyTruthy_some_of_ne htne
    have hsan : sanitize_filename t 100 =
        some (String.mk (sanitizeCore t.data 100)) := by
      rw [sanitize_filename,
        if_neg fun hd => htne (string_eq_empty_iff.mpr hd)]
    have hkey : mainObjectName (some t) name p =
        some (String.mk (sanitizeCore t.data 100) ++ get_file_extension p) := by
      rw [mainObjectName, if_pos hT]
      simp only [sanitizeOpt]
      rw [hsan]
      rfl
    have hne2 : String.mk (sanitizeCore t.data 100) ++
        get_file_extension p ≠ "" := by
      intro he
      have hd : sanitizeCore t.data 100 ++ (get_file_extension p).data = [] :=
        string_eq_empty_iff.mp he
      exact (sanitizeCore_spec t.data 100).1 (List.append_eq_nil.mp hd).1
    simp only [resolveObjectKey]
    rw [hkey, if_pos (pyTruthy_some_of_ne hne2)]
    rfl
  · intro htf n hn hnne
    subst hn
    have hTf : pyTruthy title = false := by
      rcases htf with rfl | rfl <;> simp [pyTruthy]
    have hkey : mainObjectName title (some n) p = some n := by
      rw [mainObjectName, if_neg (by rw [hTf]; exact Bool.false_ne_true),
        if_pos (pyTruthy_some_of_ne hnne)]
    simp only [resolveObjectKey]
    rw [hkey, if_pos (pyTruthy_some_of_ne hnne)]
    rfl
  · intro htf hnf
    have hTf : pyTruthy title = false := by
      rcases htf with rfl | rfl <;> simp [pyTruthy]
    have hNf : pyTruthy name = false := by
      rcases hnf with rfl | rfl <;> simp [pyTruthy]
    have hkey : mainObjectName title name p = none := by
      rw [mainObjectName, if_neg (by rw [hTf]; exact Bool.false_ne_true),
        if_neg (by rw [hNf]; exact Bool.false_ne_true)]
    simp only [resolveObjectKey]
    rw [hkey, if_neg (by decide)]

/-- C1 counterexample: when no title is given and `--name` is the (provided
but empty) string `""`, the key is NOT the explicit name verbatim — the
Python truthiness test sends it to the basename fallback instead. -/
theorem resolveObjectKey_empty_name_counterexample :
    resolveObjectKey none (some "") "/tmp/report.pdf" = "report.pdf" ∧
    resolveObjectKey none (some "") "/tmp/report.pdf" ≠ "" :=
  ⟨by decide, by decide⟩

/-- C1 (amended): first match wins, with "provided" meaning provided and
non-empty (Python truthiness): a non-empty title gives the sanitized title
followed by the lowercased extension; otherwise a non-empty explicitName is
used verbatim; otherwise — including when the explicitName is the empty
string — the base filename of the path is used. -/
theorem resolveObjectKey_precedence (title name : Option String) (p : String) :
    (∀ t, title = some t → t ≠ "" →
      ∃ s, sanitize_filename t 100 = some s ∧
        resolveObjectKey title name p = s ++ get_file_extension p) ∧
    ((title = none ∨ title = some "") → ∀ n, name = some n → n ≠ "" →
      resolveObjectKey title name p = n) ∧
    ((title = none ∨ title = some "") → (name = none ∨ name = some "") →
      resolveObjectKey title name p = pyBasename p) := by
  obtain ⟨h1, h2, h3⟩ := resolveObjectKey_eq title name p
  refine ⟨?_, h2, h3⟩
  intro t ht htne
  refine ⟨String.mk (sanitizeCore t.data 100), ?_, h1 t ht htne⟩
  rw [sanitize_filename, if_neg fun hd => htne (string_eq_empty_iff.mpr hd)]

/-- Witness for C1 (amended): the title wins over the explicit name, is
sanitized, and gets the file's extension appended. -/
theorem resolveObjectKey_precedence_witness :
    resolveObjectKey (some "My Video") (some "ignored.mp4") "x.mp4" =
      "My_Video.mp4" := by
  obtain ⟨s, hs, hk⟩ :=
    (resolveObjectKey_precedence (some "My Video") (some "ignored.mp4")
      "x.mp4").1 "My Video" rfl (by decide)
  rw [hk, Option.some.inj (hs.symm.trans
    (by decide : sanitize_filename "My Video" 100 = some "My_Video"))]
  decide

/-- C7 counterexample: an explicit `--name` containing the control character
`\x01` becomes the object key verbatim, so the resolved key of an existing
file can contain control characters. -/
theorem resolveObjectKey_ctrl_counterexample :
    pyBasename "x.mp4" ≠ "" ∧
    resolveObjectKey none (some "a\x01b") "x.mp4" = "a\x01b" ∧
    ¬noCtrl (resolveObjectKey none (some "a\x01b") "x.mp4") := by
  refine ⟨by decide, by decide, ?_⟩
  intro hno
  exact hno '\x01' (by decide) (by decide)

/-- C7 (amended): for every request whose file path has a non-empty base
filename (as a path naming an existing regular file does), the resolved key
is non-empty; it is additionally free of control characters whenever the
inputs used verbatim (the explicit name, the file's extension, and the base
filename) are — the sanitized-title part never contributes one. -/
theorem resolveObjectKey_nonempty_safe (title name : Option String)
    (p : String) (hb : pyBasename p ≠ "") :
    resolveObjectKey title name p ≠ "" ∧
    ((∀ n, name = some n → noCtrl n) → noCtrl (get_file_extension p) →
      noCtrl (pyBasename p) → noCtrl (resolveObjectKey title name p)) := by
  obtain ⟨h1, h2, h3⟩ := resolveObjectKey_eq title name p
  by_cases hT : pyTruthy title = true
  · obtain ⟨t, rfl⟩ : ∃ t, title = some t := by
      cases title with
      | none => simp [pyTruthy] at hT
      | some t => exact ⟨t, rfl⟩
    have htne : t ≠ "" := by
      intro he
      subst he
      simp [pyTruthy] at hT
    rw [h1 t rfl htne]
    constructor
    · intro he
      have hd : sanitizeCore t.data 100 ++ (get_file_extension p).data = [] :=
        string_eq_empty_iff.mp he
      exact (sanitizeCore_spec t.data 100).1 (List.append_eq_nil.mp hd).1
    · intro _ hExt _
      intro c hc
      have hc' : c ∈ sanitizeCore t.data 100 ++ (get_file_extension p).data :=
        hc
      rcases List.mem_append.mp hc' with hc1 | hc2
      · intro hctrl
        have hill := ((sanitizeCore_spec t.data 100).2.1 c hc1).1
        rw [illegal_of_ctrl hctrl] at hill
        cases hill
      · exact hExt c hc2
  · have hTf : pyTruthy title = false := Bool.eq_false_iff.mpr hT
    have htf : title = none ∨ title = some "" := by
      cases title with
      | none => exact Or.inl rfl
      | some t =>
        by_cases he : t = ""
        · exact Or.inr (by rw [he])
        · rw [pyTruthy_some_of_ne he] at hTf
          cases hTf
    by_cases hN : pyTruthy name = true
    · obtain ⟨n, rfl⟩ : ∃ n, name = some n := by
        cases name with
        | none => simp [pyTruthy] at hN
        | some n => exact ⟨n, rfl⟩
      have hnne : n ≠ "" := by
        intro he
        subst he
        simp [pyTruthy] at hN
      rw [h2 htf n rfl hnne]
      exact ⟨hnne, fun hNc _ _ => hNc n rfl⟩
    · have hNf : pyTruthy name = false := Bool.eq_false_iff.mpr hN
      have hnf : name = none ∨ name = some "" := by
        cases name with
        | none => exact Or.inl rfl
        | some n =>
          by_cases he : n = ""
          · exact Or.inr (by rw [he])
          · rw [pyTruthy_some_of_ne he] at hNf
            cases hNf
      rw [h3 htf hnf]
      exact ⟨hb, fun _ _ hB => hB⟩

/-- Witness for C7 (amended): with neither title nor name, an existing
file's path yields the non-empty basename key. -/
theorem resolveObjectKey_nonempty_safe_witness :
    resolveObjectKey none none "/tmp/report.pdf" ≠ "" :=
  (resolveObjectKey_nonempty_safe none none "/tmp/report.pdf" (by decide)).1

end MinioUpload
